import Mathlib

/-!
cubefs: extent-store persistence records and the meta-partition store/load test.

A shallow embedding of

* `ecstorage/persistence_crc.go`: the `BlockCrcArr` sort interface, the fixed-offset
  base-extent-id record of the extent metadata file and the tombstone log of deleted
  extents;
* `metanode/partition_test.go`: the generators `genInode`, `RandString`, `genDentry`, the
  oracle `checkMPInodeAndDentry` and the scenario `TestMetaPartition_StoreAndLoad`.

Unsigned machine integers are natural numbers, reduced modulo `2 ^ w` where the Go
operation truncates. A byte slice is a `List Nat`. Random draws come from an explicit
stream of raw values threaded through the generators.
-/

namespace ecstorage

/-! ## Byte order helpers (`encoding/binary`, big endian) -/

/-- Go conversion `byte(x)` of an unsigned integer: the low eight bits. -/
def byte (x : Nat) : Nat := x % 256

/-- Go `make([]byte, n)`: a slice of `n` zero bytes. -/
def make (n : Nat) : List Nat := List.replicate n 0

/-- Go `binary.BigEndian.PutUint64(b, v)`: stores `v` in the first eight cells of `b`, most
significant byte first. `none` is the run-time panic on a slice shorter than eight bytes. -/
def PutUint64 (b : List Nat) (v : Nat) : Option (List Nat) :=
  if 7 < b.length then
    some ((((((((b.set 0 (byte (v >>> 56))).set 1 (byte (v >>> 48))).set 2 (byte (v >>> 40))).set 3
      (byte (v >>> 32))).set 4 (byte (v >>> 24))).set 5 (byte (v >>> 16))).set 6
      (byte (v >>> 8))).set 7 (byte v))
  else none

/-- Go `binary.BigEndian.Uint64(b)`: the first eight cells of `b` read most significant byte
first; each shifted operand is a `uint64`. `none` is the panic on a short slice. -/
def Uint64 (b : List Nat) : Option Nat :=
  if 7 < b.length then
    some (b.getD 7 0 % 2 ^ 64 ||| (b.getD 6 0 <<< 8) % 2 ^ 64 ||| (b.getD 5 0 <<< 16) % 2 ^ 64
      ||| (b.getD 4 0 <<< 24) % 2 ^ 64 ||| (b.getD 3 0 <<< 32) % 2 ^ 64
      ||| (b.getD 2 0 <<< 40) % 2 ^ 64 ||| (b.getD 1 0 <<< 48) % 2 ^ 64
      ||| (b.getD 0 0 <<< 56) % 2 ^ 64)
  else none

/-! ## Files (`os.File`) -/

/-- Errors returned by the file operations. -/
inductive FileError where
  | closed
  | appendMode
  | eof
  deriving DecidableEq, Repr

/-- An open `*os.File`: the bytes of the file, the descriptor's current offset, whether it was
opened with `O_APPEND`, and whether the descriptor has been closed (every operation on a
closed descriptor returns an error and leaves the file alone). -/
structure File where
  data : List Nat
  pos : Nat
  appendFlag : Bool
  closed : Bool
  deriving DecidableEq, Repr

/-- The bytes of a file after `b` is written at offset `off`: a hole between the old end of
the file and `off` reads as zero bytes, the bytes under the written range are replaced, and
the bytes beyond it stay. -/
def writeBytes (data : List Nat) (off : Nat) (b : List Nat) : List Nat :=
  (data ++ List.replicate (off - data.length) 0).take off ++ b ++ data.drop (off + b.length)

/-- Go `(*os.File).WriteAt(b, off)`: number of bytes written, error, and the new file. It is
refused on a closed descriptor and on one opened with `O_APPEND`. -/
def File.WriteAt (f : File) (b : List Nat) (off : Nat) : Nat × Option FileError × File :=
  if f.closed then (0, some FileError.closed, f)
  else if f.appendFlag then (0, some FileError.appendMode, f)
  else (b.length, none, { f with data := writeBytes f.data off b })

/-- Go `(*os.File).ReadAt(b, off)`: fills `b` from offset `off`; returns the buffer, the
number of bytes read and an error, which is `eof` whenever fewer than `len(b)` bytes were
available. -/
def File.ReadAt (f : File) (b : List Nat) (off : Nat) : List Nat × Nat × Option FileError :=
  if f.closed then (b, 0, some FileError.closed)
  else
    let got := (f.data.drop off).take b.length
    (got ++ b.drop got.length, got.length, if got.length < b.length then some FileError.eof else none)

/-- Go `(*os.File).Write(b)`: writes at the current offset, or at the end of the file when
the descriptor is in append mode, and advances the offset. -/
def File.Write (f : File) (b : List Nat) : Nat × Option FileError × File :=
  if f.closed then (0, some FileError.closed, f)
  else
    let off := if f.appendFlag then f.data.length else f.pos
    (b.length, none, { f with data := writeBytes f.data off b, pos := off + b.length })

/-! ## `persistence_crc.go` -/

/-- Type `BlockCrc`; `BlockNo` is a Go `int`, `Crc` a `uint32`. -/
structure BlockCrc where
  BlockNo : Int
  Crc : Nat
  deriving DecidableEq, Repr

/-- Type `BlockCrcArr []*BlockCrc`: a slice of pointers, `none` being the nil pointer. -/
abbrev BlockCrcArr := List (Option BlockCrc)

/-- Constant `BaseExtentIDOffset`. -/
def BaseExtentIDOffset : Nat := 0

/-- Method `Len`. -/
def BlockCrcArr.Len (arr : BlockCrcArr) : Nat := arr.length

/-- Method `Less`: `arr[i].BlockNo < arr[j].BlockNo`; `none` is the panic on an index out of
range or a nil element. -/
def BlockCrcArr.Less (arr : BlockCrcArr) (i j : Nat) : Option Bool :=
  match arr[i]?, arr[j]? with
  | some (some a), some (some b) => some (decide (a.BlockNo < b.BlockNo))
  | _, _ => none

/-- Method `Swap`: `arr[i], arr[j] = arr[j], arr[i]`; `none` is the panic on an index out of
range. Both right-hand sides are read before either cell is assigned. -/
def BlockCrcArr.Swap (arr : BlockCrcArr) (i j : Nat) : Option BlockCrcArr :=
  match arr[j]?, arr[i]? with
  | some aj, some ai => some ((arr.set i aj).set j ai)
  | _, _ => none

/-- The loop of Go `sort.IsSorted`, `for i := n - 1; i > 0; i--`, entered with index `i`: it
returns `false` at the first `i` with `Less(i, i-1)`. `none` when a `Less` call panics. -/
def BlockCrcArr.isSortedLoop (arr : BlockCrcArr) : Nat → Option Bool
  | 0 => some true
  | i + 1 =>
    match arr.Less (i + 1) i with
    | none => none
    | some true => some false
    | some false => arr.isSortedLoop i

/-- Go `sort.IsSorted` run on the array. -/
def BlockCrcArr.IsSorted (arr : BlockCrcArr) : Option Bool :=
  arr.isSortedLoop (arr.Len - 1)

/-- The block number held at index `i` (zero where there is no element). -/
def BlockCrcArr.blockNo (arr : BlockCrcArr) (i : Nat) : Int :=
  match arr[i]? with
  | some (some a) => a.BlockNo
  | _ => 0

/-- The two descriptors of an `ExtentStore` used by the persistence routines. -/
structure ExtentStore where
  metadataFp : File
  normalExtentDeleteFp : File
  deriving DecidableEq, Repr

/-- Method `PersistenceBaseExtentID`: the store after the call and the returned `err`. The
outer `none` is a run-time panic. -/
def ExtentStore.PersistenceBaseExtentID (s : ExtentStore) (extentID : Nat) :
    Option (ExtentStore × Option FileError) := do
  let value := make 8
  let value ← PutUint64 value extentID
  let (_, err, fp) := s.metadataFp.WriteAt value BaseExtentIDOffset
  return ({ s with metadataFp := fp }, err)

/-- Method `GetPersistenceBaseExtentID`: the returned `(extentID, err)`; the file is only
read. -/
def ExtentStore.GetPersistenceBaseExtentID (s : ExtentStore) :
    Option (Nat × Option FileError) := do
  let data := make 8
  let (data, _, err) := s.metadataFp.ReadAt data 0
  if err ≠ none then
    return (0, err)
  let extentID ← Uint64 data
  return (extentID, err)

/-- Method `PersistenceHasDeleteExtent`: the store after the call and the returned `err`. -/
def ExtentStore.PersistenceHasDeleteExtent (s : ExtentStore) (extentID : Nat) :
    Option (ExtentStore × Option FileError) := do
  let data := make 8
  let data ← PutUint64 data extentID
  let (_, err, fp) := s.normalExtentDeleteFp.Write data
  return ({ s with normalExtentDeleteFp := fp }, err)

/-- A run of successive `PersistenceHasDeleteExtent` calls, one per identifier in call
order, that stops at the first call that panics or returns an error. -/
def persistDeletes : ExtentStore → List Nat → Option ExtentStore
  | s, [] => some s
  | s, x :: xs =>
    match s.PersistenceHasDeleteExtent x with
    | some (s1, none) => persistDeletes s1 xs
    | _ => none

/-- Reading a tombstone log back: the bytes are cut into 8-byte chunks, each decoded with
`Uint64`; a trailing chunk of fewer than eight bytes is an error. -/
def decodeTombstones : List Nat → Option (List Nat)
  | [] => some []
  | b0 :: b1 :: b2 :: b3 :: b4 :: b5 :: b6 :: b7 :: rest =>
    match Uint64 [b0, b1, b2, b3, b4, b5, b6, b7], decodeTombstones rest with
    | some x, some xs => some (x :: xs)
    | _, _ => none
  | _ => none

/-- The big-endian encoding of a 64-bit value: byte `i` is `v / 256 ^ (7 - i) % 256`. -/
def bigEndian8 (v : Nat) : List Nat :=
  (List.range 8).map (fun i => v / 256 ^ (7 - i) % 256)

end ecstorage

namespace metanode

/-! ## `math/rand` -/

/-- The global source of `math/rand`: an infinite sequence of raw draws and the number of
draws consumed so far. -/
structure Rand where
  draws : Nat → Nat
  pos : Nat

/-- The next raw draw. -/
def Rand.next (r : Rand) : Nat × Rand := (r.draws r.pos, { r with pos := r.pos + 1 })

/-- Go `rand.Uint64()`. -/
def Rand.Uint64 (r : Rand) : Nat × Rand := (r.next.1 % 2 ^ 64, r.next.2)

/-- Go `rand.Uint32()`. -/
def Rand.Uint32 (r : Rand) : Nat × Rand := (r.next.1 % 2 ^ 32, r.next.2)

/-- Go `rand.Int()`: a non-negative `int`. -/
def Rand.Int (r : Rand) : ℤ × Rand := (Int.ofNat (r.next.1 % 2 ^ 63), r.next.2)

/-- Go `rand.Intn(n)` for a positive `n`: a value in `[0, n)`. -/
def Rand.Intn (r : Rand) (n : Nat) : ℤ × Rand := (Int.ofNat (r.next.1 % n), r.next.2)

/-! ## Entities -/

set_option linter.dupNamespace false

/-- Go `proto.ExtentKey`: the fields set by `genInode`. -/
structure ExtentKey where
  FileOffset : Nat
  PartitionId : Nat
  ExtentId : Nat
  ExtentOffset : Nat
  Size : Nat
  CRC : Nat
  deriving DecidableEq, Repr

/-- Modelled from the spec: type `Inode` is declared outside the test file; the fields are
those of the spec's data model (identifier, type tag, symlink target, extent keys). Field
`Typ` is Go's `Type`. -/
structure Inode where
  Inode : Nat
  Typ : Nat
  LinkTarget : List Nat
  Extents : List ExtentKey
  deriving DecidableEq, Repr

/-- Modelled from the spec: type `Dentry` is declared outside the test file; the fields are
those of the spec's data model (parent identifier, name, child identifier, type tag). -/
structure Dentry where
  ParentId : Nat
  Name : List Nat
  Inode : Nat
  Typ : Nat
  deriving DecidableEq, Repr

/-- Modelled from the spec: `NewInode(ino, t)` is defined outside the test file; a fresh inode
has the given identifier and type tag, no symlink target and no extents. -/
def NewInode (ino t : Nat) : Inode := { Inode := ino, Typ := t, LinkTarget := [], Extents := [] }

/-- Modelled from the spec: `SortedExtents.Append` is defined outside the test file; the
extent sequence is append-only and ordered by ascending file offset, and the test appends
keys in ascending file offset, so the key goes to the end. -/
def ExtentsAppend (eks : List ExtentKey) (ek : ExtentKey) : List ExtentKey := eks ++ [ek]

/-! ## Ordered index -/

/-- Modelled from the spec: the in-memory Ordered Index is defined outside the test file. It is
kept here as the list of its entries in ascending key order. `insertIfAbsent key v` adds `v`
at its place in key order and returns `true`, or returns `false` and changes nothing when an
entry with the key of `v` is present. -/
def OrderedIndex.insertIfAbsent {κ α : Type} [LinearOrder κ] (key : α → κ) (v : α) :
    List α → List α × Bool
  | [] => ([v], true)
  | x :: xs =>
    if key v < key x then (v :: x :: xs, true)
    else if key v = key x then (x :: xs, false)
    else ((x :: (OrderedIndex.insertIfAbsent key v xs).1), (OrderedIndex.insertIfAbsent key v xs).2)

/-- Modelled from the spec: replace-or-insert on the Ordered Index, the `replace = true` mode
of the create helpers: the entry under the key of `v` is overwritten. -/
def OrderedIndex.replaceOrInsert {κ α : Type} [LinearOrder κ] (key : α → κ) (v : α) :
    List α → List α
  | [] => [v]
  | x :: xs =>
    if key v < key x then v :: x :: xs
    else if key v = key x then v :: xs
    else x :: OrderedIndex.replaceOrInsert key v xs

/-- Modelled from the spec: point lookup `get(key) -> (value, found)` on the Ordered Index. -/
def OrderedIndex.get {κ α : Type} [LinearOrder κ] (key : α → κ) (k : κ) (l : List α) : Option α :=
  l.find? (fun x => decide (key x = k))

/-- Modelled from the spec: `range(nil, nil, visit)` on the Ordered Index: the entries are
visited in key order until a visit does not ask to continue; the result tells whether every
entry was visited and asked to continue. -/
def OrderedIndex.range {α : Type} (l : List α) (visit : α → Bool) : Bool := l.all visit

/-- An index is well formed when its entries are in strictly ascending key order, so that no
two entries share a key. -/
def OrderedIndex.WF {κ α : Type} [LinearOrder κ] (key : α → κ) (l : List α) : Prop :=
  l.Pairwise (fun a b => key a < key b)

/-- The key of the inode index: the inode identifier. -/
def Inode.key (i : metanode.Inode) : Nat := i.Inode

/-- The key of the dentry index: `(ParentId, Name)`, compared lexicographically, names
bytewise. -/
def Dentry.key (d : Dentry) : Lex (Nat × List Nat) := toLex (d.ParentId, d.Name)

/-- Modelled from the spec: the inode index, an Ordered Index keyed by inode identifier. -/
abbrev InodeTree := List Inode

/-- Modelled from the spec: the dentry index, an Ordered Index keyed by `(ParentId, Name)`. -/
abbrev DentryTree := List Dentry

/-- Modelled from the spec: `count()` of the inode index. -/
def InodeTree.Count (t : InodeTree) : Nat := t.length

/-- Modelled from the spec: `get` of the inode index; `none` is the nil pointer returned for
an absent identifier. -/
def InodeTree.Get (t : InodeTree) (ino : Nat) : Option Inode := OrderedIndex.get Inode.key ino t

/-- Modelled from the spec: `range(nil, nil, cb)` of the inode index; a callback that stops
the test counts as not asking to continue. -/
def InodeTree.Range (t : InodeTree) (cb : Inode → Bool) : Bool := OrderedIndex.range t cb

/-- Modelled from the spec: `count()` of the dentry index. -/
def DentryTree.Count (t : DentryTree) : Nat := t.length

/-- Modelled from the spec: `get` of the dentry index; `none` is the nil pointer returned for
an absent key. -/
def DentryTree.Get (t : DentryTree) (parentId : Nat) (name : List Nat) : Option Dentry :=
  OrderedIndex.get Dentry.key (toLex (parentId, name)) t

/-- Modelled from the spec: `range(nil, nil, cb)` of the dentry index. -/
def DentryTree.Range (t : DentryTree) (cb : Dentry → Bool) : Bool := OrderedIndex.range t cb

/-- Modelled from the spec: `inodeCreate(tree, ino, replace)` is defined outside the test file;
with `replace = false` it is insert-if-absent on the inode identifier. Returns the tree after
the call, `ok` and whether `err` is non-nil (the in-memory index reports no error). -/
def inodeCreate (tree : InodeTree) (ino : Inode) (replace : Bool) : InodeTree × Bool × Bool :=
  if replace then (OrderedIndex.replaceOrInsert Inode.key ino tree, true, false)
  else ((OrderedIndex.insertIfAbsent Inode.key ino tree).1,
    (OrderedIndex.insertIfAbsent Inode.key ino tree).2, false)

/-- Modelled from the spec: `dentryCreate(tree, dentry, replace)` is defined outside the test
file; with `replace = false` it is insert-if-absent on the key `(ParentId, Name)`. -/
def dentryCreate (tree : DentryTree) (dentry : Dentry) (replace : Bool) :
    DentryTree × Bool × Bool :=
  if replace then (OrderedIndex.replaceOrInsert Dentry.key dentry tree, true, false)
  else ((OrderedIndex.insertIfAbsent Dentry.key dentry tree).1,
    (OrderedIndex.insertIfAbsent Dentry.key dentry tree).2, false)

/-! ## The mock partition -/

/-- Go `proto.StoreMode`. -/
inductive StoreMode where
  | StoreModeMem
  | StoreModeRocksDb
  deriving DecidableEq, Repr

/-- The fields of `MetaPartitionConfig` set by `mockMetaPartition`. -/
structure MetaPartitionConfig where
  RocksDBDir : String
  PartitionId : Nat
  NodeId : Nat
  Start : Nat
  End : Nat
  Peers : List (Nat × String)
  RootDir : String
  StoreMode : StoreMode
  deriving DecidableEq, Repr

/-- Go `math.MaxUint64`. -/
def MaxUint64 : Nat := 2 ^ 64 - 1

/-- Modelled from the spec: the persisted header (§4.4) is defined outside the test file; it
records the apply index, the marshal version used for the data and the entry counts. -/
structure SnapshotHeader where
  applyIndex : Nat
  version : Nat
  inodeCount : Nat
  dentryCount : Nat
  deriving DecidableEq, Repr

/-- Modelled from the spec: the durable artifacts in a partition's root directory (§6): the
header file and one data file per index, each a sequence of encoded records. -/
structure Disk where
  header : SnapshotHeader
  inodeFile : List (List Nat)
  dentryFile : List (List Nat)
  deriving DecidableEq, Repr

/-- The state of a `metaPartition` the test touches: its configuration, the two indexes, the
last applied index, the configured marshal version and what its root directory holds. -/
structure MetaPartition where
  config : MetaPartitionConfig
  inodeTree : InodeTree
  dentryTree : DentryTree
  applyID : Nat
  marshalVersion : Nat
  disk : Option Disk
  deriving DecidableEq, Repr

/-- Modelled from the spec: see `MetaPartitionMarshVersion1`. -/
def MetaPartitionMarshVersion2 : Nat := 2

/-- Function `mockMetaPartition`: the configuration is the one written in the test; the
partition returned by `CreateMetaPartition` (defined outside the test file) starts with both
indexes empty, nothing applied and, `os.RemoveAll(rootDir)` having run, nothing stored. The
test assigns the marshal version before it stores or loads. -/
def mockMetaPartition (partitionID metaNodeID : Nat) (storeMode : StoreMode) (rootDir : String) :
    MetaPartition :=
  { config :=
      { RocksDBDir := rootDir
        PartitionId := partitionID
        NodeId := metaNodeID
        Start := 1
        End := MaxUint64 - 100
        Peers := [(metaNodeID, "127.0.0.1")]
        RootDir := rootDir
        StoreMode := storeMode }
    inodeTree := []
    dentryTree := []
    applyID := 0
    marshalVersion := MetaPartitionMarshVersion2
    disk := none }

/-- Constant `count` of the test file. -/
def count : Nat := 10000

/-! ## Generators -/

/-- The bytes `'1','2','3','4','1','2','3','4'` of `testTarget` in `genInode`. -/
def testTarget : List Nat := [49, 50, 51, 52, 49, 50, 51, 52]

/-- The inner loop of `genInode`, `for j := 0; j < 10; j++`: ten extent keys with random
partition, extent, offset and size are appended. -/
def genInode.extents (ino : Inode) (r : Rand) : Inode × Rand :=
  (List.range 10).foldl (fun (p : Inode × Rand) (j : Nat) =>
    let (partitionId, r) := p.2.Uint64
    let (extentId, r) := r.Uint64
    let (extentOffset, r) := r.Uint64
    let (size, r) := r.Uint32
    let ek : ExtentKey :=
      { FileOffset := j * 1024 * 4, PartitionId := partitionId, ExtentId := extentId,
        ExtentOffset := extentOffset, Size := size, CRC := 0 }
    ({ p.1 with Extents := ExtentsAppend p.1.Extents ek }, r)) (ino, r)

/-- One pass through the body of the loop of `genInode`: the tree, the random source and
`maxInode` after the pass, and whether `i` is incremented. -/
def genInode.body (r : Rand) (tree : InodeTree) (maxInode : Nat) :
    InodeTree × Rand × Nat × Bool :=
  let (x, r) := r.Uint64
  let ino := NewInode (x % 1000000000 + 1) 0
  let maxInode := if ino.Inode > maxInode then ino.Inode else maxInode
  let (ino, r) :=
    if ino.Inode % 997 = 0 then
      let ino := { ino with LinkTarget := ino.LinkTarget ++ testTarget }
      let (t, r) := r.Uint32
      genInode.extents { ino with Typ := t } r
    else (ino, r)
  let (tree, ok, err) := inodeCreate tree ino false
  if err || !ok then (tree, r, maxInode, false)
  else (tree, r, maxInode, true)

/-- The loop of `genInode`, `for i < cnt`, entered with counter `i`; `fuel` bounds the number
of passes and `none` means the bound was reached before the loop ended. -/
def genInode.loop (cnt : Nat) : Nat → Rand → InodeTree → Nat → Nat → Option (Nat × InodeTree × Rand)
  | 0, r, tree, i, maxInode => if i < cnt then none else some (maxInode, tree, r)
  | fuel + 1, r, tree, i, maxInode =>
    if i < cnt then
      match genInode.body r tree maxInode with
      | (tree, r, maxInode, true) => genInode.loop cnt fuel r tree (i + 1) maxInode
      | (tree, r, maxInode, false) => genInode.loop cnt fuel r tree i maxInode
    else some (maxInode, tree, r)

/-- Function `genInode(t, mp, cnt)`: the returned `maxInode`, the partition and the random
source after the call. -/
def genInode (fuel : Nat) (r : Rand) (mp : MetaPartition) (cnt : Nat) :
    Option (Nat × MetaPartition × Rand) :=
  (genInode.loop cnt fuel r mp.inodeTree 0 0).map
    (fun res => (res.1, { mp with inodeTree := res.2.1 }, res.2.2))

/-- Go conversion `byte(b)` of an `int`: the low eight bits. -/
def byteOfInt (b : ℤ) : Nat := (b % 256).toNat

/-- Function `RandString(len)`; `none` is the panic of `make` on a negative length. -/
def RandString (r : Rand) (len : ℤ) : Option (List Nat × Rand) :=
  if len < 0 then none
  else
    some ((List.range len.toNat).foldl (fun (p : List Nat × Rand) (i : Nat) =>
      let (b, r) := p.2.Intn 26
      let b := b + 65
      (p.1.set i (byteOfInt b), r)) (ecstorage.make len.toNat, r))

/-- One pass through the body of the loop of `genDentry`: the tree and the random source
after the pass and whether `i` is incremented; `none` is a panic. -/
def genDentry.body (r : Rand) (tree : DentryTree) (maxInode : Nat) :
    Option (DentryTree × Rand × Bool) :=
  let (parentId, r) := r.Uint64
  let parentId := parentId % 1000000000 + 1
  let (inode, r) := r.Uint64
  let inode := inode % 1000000000 + 1
  if parentId > maxInode then some (tree, r, false)
  else
    let (typ, r) := r.Uint32
    let (n, r) := r.Int
    match RandString r (n % 100 + 10) with
    | none => none
    | some (name, r) =>
      let dentry : Dentry := { ParentId := parentId, Name := name, Inode := inode, Typ := typ }
      let (tree, ok, err) := dentryCreate tree dentry false
      if err || !ok then some (tree, r, false)
      else some (tree, r, true)

/-- The loop of `genDentry`, `for i < cnt`, entered with counter `i`; `fuel` bounds the
number of passes. -/
def genDentry.loop (cnt maxInode : Nat) : Nat → Rand → DentryTree → Nat → Option (DentryTree × Rand)
  | 0, r, tree, i => if i < cnt then none else some (tree, r)
  | fuel + 1, r, tree, i =>
    if i < cnt then
      match genDentry.body r tree maxInode with
      | none => none
      | some (tree, r, true) => genDentry.loop cnt maxInode fuel r tree (i + 1)
      | some (tree, r, false) => genDentry.loop cnt maxInode fuel r tree i
    else some (tree, r)

/-- Function `genDentry(t, mp, cnt, maxInode)`: the partition and the random source after
the call. -/
def genDentry (fuel : Nat) (r : Rand) (mp : MetaPartition) (cnt maxInode : Nat) :
    Option (MetaPartition × Rand) :=
  (genDentry.loop cnt maxInode fuel r mp.dentryTree 0).map
    (fun res => ({ mp with dentryTree := res.1 }, res.2))

/-- What `genDentry` guarantees of a dentry it stores: parent and child identifiers in
`[1, 1000000000]`, the parent at most `maxInode`, and a name of 10 to 109 upper-case
letters. -/
def genDentry.Good (maxInode : Nat) (d : Dentry) : Prop :=
  1 ≤ d.ParentId ∧ d.ParentId ≤ 1000000000 ∧ d.ParentId ≤ maxInode ∧
  1 ≤ d.Inode ∧ d.Inode ≤ 1000000000 ∧
  10 ≤ d.Name.length ∧ d.Name.length ≤ 109 ∧ ∀ b ∈ d.Name, 65 ≤ b ∧ b ≤ 90

/-! ## The test oracle -/

/-- Function `checkMPInodeAndDentry(t, mp1, mp2)`: `true` when the test goes on, `false` when
it stops at a `t.FailNow()`. `reflect.DeepEqual` of the visited entry with the pointer
returned by `Get` holds when an entry was found and is structurally equal. -/
def checkMPInodeAndDentry (mp1 mp2 : MetaPartition) : Bool :=
  if mp1.inodeTree.Count ≠ mp2.inodeTree.Count ∨ mp1.inodeTree.Count ≠ count then false
  else if !(mp1.inodeTree.Range (fun ino1 =>
      decide (some ino1 = mp2.inodeTree.Get ino1.Inode))) then false
  else if mp1.dentryTree.Count ≠ mp2.dentryTree.Count ∨ mp2.dentryTree.Count ≠ count then false
  else mp1.dentryTree.Range (fun dentry1 =>
      decide (some dentry1 = mp2.dentryTree.Get dentry1.ParentId dentry1.Name))

/-- A partition holding `count` inodes `1..count` and `count` dentries `(i, "A") -> i`, used
to exercise the oracle. -/
def samplePartition (partitionID : Nat) : MetaPartition :=
  { mockMetaPartition partitionID 1 StoreMode.StoreModeMem "./partition" with
    inodeTree := (List.range count).map (fun i => NewInode (i + 1) 0)
    dentryTree := (List.range count).map
      (fun i => { ParentId := i + 1, Name := [65], Inode := i + 1, Typ := 0 }) }

/-! ## Persistence engine: snapshot, store and load -/

end metanode

/-! # Theorems -/

namespace ecstorage

/-! ## Big-endian codec -/

theorem or_shiftLeft_of_lt (acc x k : Nat) (h : acc < 2 ^ k) :
    acc ||| x <<< k = x * 2 ^ k + acc := by
  rw [Nat.shiftLeft_eq, Nat.or_comm, Nat.mul_comm x, Nat.mul_add_lt_is_or h]

theorem PutUint64_make (v : Nat) :
    PutUint64 (make 8) v = some [byte (v >>> 56), byte (v >>> 48), byte (v >>> 40),
      byte (v >>> 32), byte (v >>> 24), byte (v >>> 16), byte (v >>> 8), byte v] := by
  simp [PutUint64, make, List.replicate]

theorem PutUint64_make_eq_bigEndian8 (v : Nat) : PutUint64 (make 8) v = some (bigEndian8 v) := by
  rw [PutUint64_make]
  simp [bigEndian8, byte, List.range, List.range.loop, Nat.shiftRight_eq_div_pow]

theorem bigEndian8_length (v : Nat) : (bigEndian8 v).length = 8 := by
  simp [bigEndian8]

theorem Uint64_of_bytes (b0 b1 b2 b3 b4 b5 b6 b7 : Nat) (h0 : b0 < 256) (h1 : b1 < 256)
    (h2 : b2 < 256) (h3 : b3 < 256) (h4 : b4 < 256) (h5 : b5 < 256) (h6 : b6 < 256)
    (h7 : b7 < 256) :
    Uint64 [b0, b1, b2, b3, b4, b5, b6, b7] =
      some (b0 * 2 ^ 56 + b1 * 2 ^ 48 + b2 * 2 ^ 40 + b3 * 2 ^ 32 + b4 * 2 ^ 24 + b5 * 2 ^ 16
        + b6 * 2 ^ 8 + b7) := by
  have e7 : b7 % 2 ^ 64 = b7 := Nat.mod_eq_of_lt (by omega)
  have e6 : (b6 <<< 8) % 2 ^ 64 = b6 <<< 8 := by
    rw [Nat.shiftLeft_eq]; exact Nat.mod_eq_of_lt (by omega)
  have e5 : (b5 <<< 16) % 2 ^ 64 = b5 <<< 16 := by
    rw [Nat.shiftLeft_eq]; exact Nat.mod_eq_of_lt (by omega)
  have e4 : (b4 <<< 24) % 2 ^ 64 = b4 <<< 24 := by
    rw [Nat.shiftLeft_eq]; exact Nat.mod_eq_of_lt (by omega)
  have e3 : (b3 <<< 32) % 2 ^ 64 = b3 <<< 32 := by
    rw [Nat.shiftLeft_eq]; exact Nat.mod_eq_of_lt (by omega)
  have e2 : (b2 <<< 40) % 2 ^ 64 = b2 <<< 40 := by
    rw [Nat.shiftLeft_eq]; exact Nat.mod_eq_of_lt (by omega)
  have e1 : (b1 <<< 48) % 2 ^ 64 = b1 <<< 48 := by
    rw [Nat.shiftLeft_eq]; exact Nat.mod_eq_of_lt (by omega)
  have e0 : (b0 <<< 56) % 2 ^ 64 = b0 <<< 56 := by
    rw [Nat.shiftLeft_eq]; exact Nat.mod_eq_of_lt (by omega)
  simp only [Uint64, List.length_cons, List.length_nil, List.getD_cons_succ, List.getD_cons_zero]
  rw [if_pos (by omega), e7, e6, e5, e4, e3, e2, e1, e0]
  rw [or_shiftLeft_of_lt _ _ 8 (by omega), or_shiftLeft_of_lt _ _ 16 (by omega),
    or_shiftLeft_of_lt _ _ 24 (by omega), or_shiftLeft_of_lt _ _ 32 (by omega),
    or_shiftLeft_of_lt _ _ 40 (by omega), or_shiftLeft_of_lt _ _ 48 (by omega),
    or_shiftLeft_of_lt _ _ 56 (by omega)]
  apply congrArg some
  omega

theorem Uint64_bigEndian8 (v : Nat) : Uint64 (bigEndian8 v) = some (v % 2 ^ 64) := by
  have h : bigEndian8 v = [v / 2 ^ 56 % 256, v / 2 ^ 48 % 256, v / 2 ^ 40 % 256,
      v / 2 ^ 32 % 256, v / 2 ^ 24 % 256, v / 2 ^ 16 % 256, v / 2 ^ 8 % 256, v % 256] := by
    simp [bigEndian8, List.range, List.range.loop]
  rw [h, Uint64_of_bytes _ _ _ _ _ _ _ _ (Nat.mod_lt _ (by norm_num)) (Nat.mod_lt _ (by norm_num))
    (Nat.mod_lt _ (by norm_num)) (Nat.mod_lt _ (by norm_num)) (Nat.mod_lt _ (by norm_num))
    (Nat.mod_lt _ (by norm_num)) (Nat.mod_lt _ (by norm_num)) (Nat.mod_lt _ (by norm_num))]
  apply congrArg some
  omega

/-! ## The metadata file -/

theorem writeBytes_zero (data b : List Nat) : writeBytes data 0 b = b ++ data.drop b.length := by
  simp [writeBytes]

theorem PersistenceBaseExtentID_eq (s : ExtentStore) (v : Nat) :
    s.PersistenceBaseExtentID v =
      some (if s.metadataFp.closed then (s, some FileError.closed)
        else if s.metadataFp.appendFlag then (s, some FileError.appendMode)
        else ({ s with metadataFp :=
          { s.metadataFp with data := bigEndian8 v ++ s.metadataFp.data.drop 8 } }, none)) := by
  simp only [ExtentStore.PersistenceBaseExtentID, PutUint64_make_eq_bigEndian8, File.WriteAt,
    BaseExtentIDOffset, writeBytes_zero, bigEndian8_length]
  by_cases hc : s.metadataFp.closed = true
  · simp [hc]
  · by_cases ha : s.metadataFp.appendFlag = true
    · simp [hc, ha]
    · simp [hc, ha, bigEndian8_length]

theorem GetPersistenceBaseExtentID_of_append (s : ExtentStore) (b rest : List Nat)
    (hb : b.length = 8) (hd : s.metadataFp.data = b ++ rest) (hc : s.metadataFp.closed = false) :
    s.GetPersistenceBaseExtentID = (Uint64 b).map (fun x => (x, none)) := by
  simp only [ExtentStore.GetPersistenceBaseExtentID, File.ReadAt, hc, hd, make]
  simp [hb]
  cases Uint64 b <;> rfl

/-- C2. Base-extent-id round trip: after a successful `PersistenceBaseExtentID(extentID)` of a
64-bit identifier, `GetPersistenceBaseExtentID` returns `(extentID, nil)`. -/
theorem base_extent_id_round_trip (s s1 : ExtentStore) (extentID : Nat)
    (hid : extentID < 2 ^ 64) (h : s.PersistenceBaseExtentID extentID = some (s1, none)) :
    s1.GetPersistenceBaseExtentID = some (extentID, none) := by
  rw [PersistenceBaseExtentID_eq] at h
  by_cases hc : s.metadataFp.closed = true
  · simp [hc] at h
  · by_cases ha : s.metadataFp.appendFlag = true
    · simp [hc, ha] at h
    · simp only [hc, ha, Bool.false_eq_true, if_false, Option.some.injEq, Prod.mk.injEq,
        and_true] at h
      subst h
      rw [GetPersistenceBaseExtentID_of_append _ (bigEndian8 extentID)
        (s.metadataFp.data.drop 8) (bigEndian8_length _) rfl (by simp [hc]),
        Uint64_bigEndian8, Nat.mod_eq_of_lt hid]
      rfl

/-- C2, witness: writing 258 over a ten-byte metadata file and reading it back. -/
theorem base_extent_id_round_trip_witness :
    (ExtentStore.mk ⟨[9, 9, 9, 9, 9, 9, 9, 9, 7, 7], 0, false, false⟩
        ⟨[], 0, true, false⟩).PersistenceBaseExtentID 258 =
      some (ExtentStore.mk ⟨[0, 0, 0, 0, 0, 0, 1, 2, 7, 7], 0, false, false⟩
        ⟨[], 0, true, false⟩, none) ∧
    (ExtentStore.mk ⟨[0, 0, 0, 0, 0, 0, 1, 2, 7, 7], 0, false, false⟩
        ⟨[], 0, true, false⟩).GetPersistenceBaseExtentID = some (258, none) :=
  ⟨by decide, base_extent_id_round_trip
    (ExtentStore.mk ⟨[9, 9, 9, 9, 9, 9, 9, 9, 7, 7], 0, false, false⟩ ⟨[], 0, true, false⟩)
    (ExtentStore.mk ⟨[0, 0, 0, 0, 0, 0, 1, 2, 7, 7], 0, false, false⟩ ⟨[], 0, true, false⟩)
    258 (by norm_num) (by decide)⟩

theorem bigEndian8_getElem? (v i : Nat) (hi : i < 8) :
    (bigEndian8 v)[i]? = some (v / 256 ^ (7 - i) % 256) := by
  simp [bigEndian8, List.getElem?_map, List.getElem?_range hi]

/-- C4. A successful `PersistenceBaseExtentID` rewrites only the base-extent-id record: bytes
0..7 of the metadata file become the big-endian encoding of `extentID`, most significant byte
at offset 0, every byte that existed at an offset of 8 or more (the reserve marker at 8..15
included) keeps its value, no byte is added beyond the record, and nothing else in the store
changes. -/
theorem PersistenceBaseExtentID_frame (s s1 : ExtentStore) (extentID : Nat)
    (h : s.PersistenceBaseExtentID extentID = some (s1, none)) :
    s1.metadataFp.data = bigEndian8 extentID ++ s.metadataFp.data.drop 8 ∧
    (∀ i, i < 8 → s1.metadataFp.data[i]? = some (extentID / 256 ^ (7 - i) % 256)) ∧
    (∀ i, 8 ≤ i → s1.metadataFp.data[i]? = s.metadataFp.data[i]?) ∧
    s1.metadataFp.data.length = max 8 s.metadataFp.data.length ∧
    s1.metadataFp.pos = s.metadataFp.pos ∧
    s1.metadataFp.appendFlag = s.metadataFp.appendFlag ∧
    s1.metadataFp.closed = s.metadataFp.closed ∧
    s1.normalExtentDeleteFp = s.normalExtentDeleteFp := by
  rw [PersistenceBaseExtentID_eq] at h
  by_cases hc : s.metadataFp.closed = true
  · simp [hc] at h
  · by_cases ha : s.metadataFp.appendFlag = true
    · simp [hc, ha] at h
    · simp only [hc, ha, Bool.false_eq_true, if_false, Option.some.injEq, Prod.mk.injEq,
        and_true] at h
      subst h
      refine ⟨rfl, ?_, ?_, ?_, rfl, by simp [ha], by simp [hc], rfl⟩
      · intro i hi
        show (bigEndian8 extentID ++ s.metadataFp.data.drop 8)[i]? = _
        rw [List.getElem?_append_left (by rw [bigEndian8_length]; exact hi)]
        exact bigEndian8_getElem? _ _ hi
      · intro i hi
        show (bigEndian8 extentID ++ s.metadataFp.data.drop 8)[i]? = _
        rw [List.getElem?_append_right (by rw [bigEndian8_length]; exact hi),
          bigEndian8_length, List.getElem?_drop]
        congr 1
        omega
      · show (bigEndian8 extentID ++ s.metadataFp.data.drop 8).length = _
        rw [List.length_append, bigEndian8_length, List.length_drop]
        omega

/-- C4, witness: the record is rewritten in a 17-byte file whose reserve marker and trailing
byte stay. -/
theorem PersistenceBaseExtentID_frame_witness :
    (ExtentStore.mk ⟨[0, 0, 0, 0, 0, 0, 1, 2, 11, 12, 13, 14, 15, 16, 17, 18, 5], 3, false,
        false⟩ ⟨[4], 1, true, false⟩).metadataFp.data =
      bigEndian8 258 ++ List.drop 8 [9, 9, 9, 9, 9, 9, 9, 9, 11, 12, 13, 14, 15, 16, 17, 18, 5] :=
  (PersistenceBaseExtentID_frame
    (ExtentStore.mk ⟨[9, 9, 9, 9, 9, 9, 9, 9, 11, 12, 13, 14, 15, 16, 17, 18, 5], 3, false,
      false⟩ ⟨[4], 1, true, false⟩)
    (ExtentStore.mk ⟨[0, 0, 0, 0, 0, 0, 1, 2, 11, 12, 13, 14, 15, 16, 17, 18, 5], 3, false,
      false⟩ ⟨[4], 1, true, false⟩) 258 (by decide)).1

theorem writeBytes_at_end (data b : List Nat) : writeBytes data data.length b = data ++ b := by
  simp [writeBytes]

theorem PersistenceHasDeleteExtent_at_end (s s1 : ExtentStore) (x : Nat)
    (hend : s.normalExtentDeleteFp.appendFlag = true ∨
      s.normalExtentDeleteFp.pos = s.normalExtentDeleteFp.data.length)
    (h : s.PersistenceHasDeleteExtent x = some (s1, none)) :
    s1.normalExtentDeleteFp.data = s.normalExtentDeleteFp.data ++ bigEndian8 x ∧
    s1.normalExtentDeleteFp.pos = s1.normalExtentDeleteFp.data.length ∧
    s1.metadataFp = s.metadataFp := by
  have hoff : (if s.normalExtentDeleteFp.appendFlag = true then
      s.normalExtentDeleteFp.data.length else s.normalExtentDeleteFp.pos) =
      s.normalExtentDeleteFp.data.length := by
    rcases hend with h1 | h1
    · rw [if_pos h1]
    · split_ifs
      · rfl
      · exact h1
  simp only [ExtentStore.PersistenceHasDeleteExtent, PutUint64_make_eq_bigEndian8, File.Write,
    hoff, writeBytes_at_end, bigEndian8_length] at h
  by_cases hc : s.normalExtentDeleteFp.closed = true
  · simp [hc] at h
  · simp [hc] at h
    subst h
    simp [bigEndian8_length]

theorem persistDeletes_data (xs : List Nat) : ∀ (s s1 : ExtentStore),
    (s.normalExtentDeleteFp.appendFlag = true ∨
      s.normalExtentDeleteFp.pos = s.normalExtentDeleteFp.data.length) →
    persistDeletes s xs = some s1 →
    s1.normalExtentDeleteFp.data = s.normalExtentDeleteFp.data ++ xs.flatMap bigEndian8 ∧
    s1.metadataFp = s.metadataFp := by
  induction xs with
  | nil =>
    intro s s1 _ h
    simp only [persistDeletes, Option.some.injEq] at h
    subst h
    simp
  | cons x xs ih =>
    intro s s1 hend h
    simp only [persistDeletes] at h
    cases hp : s.PersistenceHasDeleteExtent x with
    | none => simp [hp] at h
    | some r =>
      obtain ⟨s2, err⟩ := r
      cases err with
      | some e => simp [hp] at h
      | none =>
        simp only [hp] at h
        obtain ⟨hd, hpos, hm⟩ := PersistenceHasDeleteExtent_at_end s s2 x hend hp
        obtain ⟨hd2, hm2⟩ := ih s2 s1 (Or.inr hpos) h
        refine ⟨?_, hm2.trans hm⟩
        rw [hd2, hd, List.flatMap_cons, List.append_assoc]

theorem decodeTombstones_append (b rest : List Nat) (hb : b.length = 8) :
    decodeTombstones (b ++ rest) =
      match Uint64 b, decodeTombstones rest with
      | some x, some xs => some (x :: xs)
      | _, _ => none := by
  match b, hb with
  | [b0, b1, b2, b3, b4, b5, b6, b7], _ => rfl

theorem decodeTombstones_flatMap (xs : List Nat) (hx : ∀ x ∈ xs, x < 2 ^ 64) :
    decodeTombstones (xs.flatMap bigEndian8) = some xs := by
  induction xs with
  | nil => rfl
  | cons x xs ih =>
    rw [List.flatMap_cons, decodeTombstones_append _ _ (bigEndian8_length x), Uint64_bigEndian8,
      ih (fun y hy => hx y (List.mem_cons_of_mem _ hy)),
      Nat.mod_eq_of_lt (hx x (List.mem_cons_self _ _))]

theorem length_flatMap_bigEndian8 (xs : List Nat) :
    (xs.flatMap bigEndian8).length = 8 * xs.length := by
  induction xs with
  | nil => rfl
  | cons x xs ih =>
    rw [List.flatMap_cons, List.length_append, bigEndian8_length, ih, List.length_cons]
    omega

/-- C3. The tombstone log is append-only: after successful calls of
`PersistenceHasDeleteExtent` on the 64-bit identifiers `xs`, each write landing at the end of
the file, the log is the prior content followed by the 8-byte big-endian encodings of `xs` in
call order; the prior content is an unchanged prefix, the length grows by `8 * xs.length`, the
appended bytes decode in 8-byte chunks to `xs`, and the metadata file is untouched. -/
theorem tombstone_log_append_only (s s1 : ExtentStore) (xs : List Nat)
    (hx : ∀ x ∈ xs, x < 2 ^ 64)
    (hend : s.normalExtentDeleteFp.appendFlag = true ∨
      s.normalExtentDeleteFp.pos = s.normalExtentDeleteFp.data.length)
    (h : persistDeletes s xs = some s1) :
    s1.normalExtentDeleteFp.data = s.normalExtentDeleteFp.data ++ xs.flatMap bigEndian8 ∧
    s1.normalExtentDeleteFp.data.take s.normalExtentDeleteFp.data.length =
      s.normalExtentDeleteFp.data ∧
    s1.normalExtentDeleteFp.data.length = s.normalExtentDeleteFp.data.length + 8 * xs.length ∧
    decodeTombstones (s1.normalExtentDeleteFp.data.drop s.normalExtentDeleteFp.data.length) =
      some xs ∧
    s1.metadataFp = s.metadataFp := by
  obtain ⟨hd, hm⟩ := persistDeletes_data xs s s1 hend h
  refine ⟨hd, ?_, ?_, ?_, hm⟩
  · rw [hd, List.take_left]
  · rw [hd, List.length_append, length_flatMap_bigEndian8]
  · rw [hd, List.drop_left, decodeTombstones_flatMap xs hx]

/-- C3, witness: two tombstones appended to a log that already holds one. -/
theorem tombstone_log_append_only_witness :
    (ExtentStore.mk ⟨[], 0, false, false⟩
        ⟨[0, 0, 0, 0, 0, 0, 0, 7, 0, 0, 0, 0, 0, 0, 1, 2, 0, 0, 0, 0, 0, 0, 0, 5], 24, true,
          false⟩).normalExtentDeleteFp.data =
      [0, 0, 0, 0, 0, 0, 0, 7] ++ [258, 5].flatMap bigEndian8 :=
  (tombstone_log_append_only
    (ExtentStore.mk ⟨[], 0, false, false⟩ ⟨[0, 0, 0, 0, 0, 0, 0, 7], 0, true, false⟩)
    (ExtentStore.mk ⟨[], 0, false, false⟩
      ⟨[0, 0, 0, 0, 0, 0, 0, 7, 0, 0, 0, 0, 0, 0, 1, 2, 0, 0, 0, 0, 0, 0, 0, 5], 24, true,
        false⟩)
    [258, 5] (by decide) (Or.inl rfl) (by decide)).1

/-! ## `BlockCrcArr` as a `sort.Interface` -/

theorem swap_perm {α : Type} (l : List α) (i j : Nat) (hi : i < l.length) (hj : j < l.length) :
    List.Perm ((l.set i l[j]).set j l[i]) l := by
  classical
  rw [List.perm_iff_count]
  intro a
  rw [List.count_set _ _ _ _ (by rw [List.length_set]; exact hj), List.count_set _ _ _ _ hi]
  have hci : 0 < l.count l[i] := List.count_pos_iff.mpr (List.getElem_mem hi)
  have hcj : 0 < l.count l[j] := List.count_pos_iff.mpr (List.getElem_mem hj)
  by_cases hij : i = j
  · subst hij
    simp only [List.getElem_set_self]
    by_cases h1 : l[i] = a
    · subst h1; simp
    · simp [h1]
  · rw [List.getElem_set_ne hij]
    by_cases h1 : l[i] = a
    · by_cases h2 : l[j] = a
      · simp [h1, h2]; subst h1; omega
      · simp [h1, h2]; subst h1; omega
    · by_cases h2 : l[j] = a
      · simp [h1, h2]
      · simp [h1, h2]

theorem BlockCrcArr.getElem?_of_nonNil (arr : BlockCrcArr) (hnn : ∀ e ∈ arr, e ≠ none) (i : Nat)
    (hi : i < arr.Len) : ∃ a : BlockCrc, arr[i]? = some (some a) := by
  have hi1 : i < arr.length := hi
  have hmem : arr[i] ∈ arr := List.getElem_mem hi1
  cases he : arr[i] with
  | none => exact absurd he (hnn _ hmem)
  | some a => exact ⟨a, by rw [List.getElem?_eq_getElem hi1, he]⟩

theorem BlockCrcArr.Less_eq (arr : BlockCrcArr) (hnn : ∀ e ∈ arr, e ≠ none) (i j : Nat)
    (hi : i < arr.Len) (hj : j < arr.Len) :
    arr.Less i j = some (decide (arr.blockNo i < arr.blockNo j)) := by
  obtain ⟨a, ha⟩ := arr.getElem?_of_nonNil hnn i hi
  obtain ⟨b, hb⟩ := arr.getElem?_of_nonNil hnn j hj
  simp only [BlockCrcArr.Less, BlockCrcArr.blockNo, ha, hb]

theorem BlockCrcArr.isSortedLoop_eq (arr : BlockCrcArr) (hnn : ∀ e ∈ arr, e ≠ none) (m : Nat)
    (hm : m ≤ arr.Len - 1) :
    arr.isSortedLoop m = some (decide (∀ k, k < m → arr.blockNo k ≤ arr.blockNo (k + 1))) := by
  induction m with
  | zero => simp [BlockCrcArr.isSortedLoop]
  | succ m ih =>
    rw [BlockCrcArr.isSortedLoop, arr.Less_eq hnn (m + 1) m (by omega) (by omega)]
    by_cases hlt : arr.blockNo (m + 1) < arr.blockNo m
    · have : ¬ ∀ k, k < m + 1 → arr.blockNo k ≤ arr.blockNo (k + 1) := fun h =>
        absurd (h m (Nat.lt_succ_self m)) (not_le.mpr hlt)
      simp [hlt, this]
    · simp only [hlt, decide_False]
      rw [ih (by omega)]
      congr 1
      apply decide_eq_decide.mpr
      constructor
      · intro h k hk
        rcases Nat.lt_succ_iff_lt_or_eq.mp hk with h1 | h1
        · exact h k h1
        · subst h1; exact not_lt.mp hlt
      · intro h k hk
        exact h k (Nat.lt_succ_of_lt hk)

theorem BlockCrcArr.adjacent_iff_monotone (arr : BlockCrcArr) :
    (∀ k, k < arr.Len - 1 → arr.blockNo k ≤ arr.blockNo (k + 1)) ↔
      ∀ i j, i ≤ j → j < arr.Len → arr.blockNo i ≤ arr.blockNo j := by
  constructor
  · intro h i j hij
    induction j with
    | zero =>
      intro _
      have : i = 0 := Nat.le_zero.mp hij
      subst this
      exact le_refl _
    | succ j ih =>
      intro hj
      rcases Nat.le_succ_iff.mp hij with h1 | h1
      · exact le_trans (ih h1 (Nat.lt_of_succ_lt hj)) (h j (by omega))
      · subst h1; exact le_refl _
  · intro h k hk
    exact h k (k + 1) (Nat.le_succ k) (by omega)

/-- C9. `BlockCrcArr` satisfies the `sort.Interface` laws for ordering by block number: on an
array without nil elements and for indexes in range, `Less(i, j)` is the comparison
`arr[i].BlockNo < arr[j].BlockNo`, hence irreflexive, asymmetric and transitive, and both
`Less(i, j)` and `Less(j, i)` are false exactly when the block numbers are equal; `Swap(i, j)`
exchanges the elements at `i` and `j`, leaves every other position alone and keeps `Len` and
the multiset of elements; and `sort.IsSorted` holds exactly when the block numbers are
non-decreasing. -/
theorem BlockCrcArr_sort_interface (arr : BlockCrcArr) (hnn : ∀ e ∈ arr, e ≠ none) :
    (∀ i j, i < arr.Len → j < arr.Len →
      arr.Less i j = some (decide (arr.blockNo i < arr.blockNo j))) ∧
    (∀ i, i < arr.Len → arr.Less i i = some false) ∧
    (∀ i j, i < arr.Len → j < arr.Len → arr.Less i j = some true → arr.Less j i = some false) ∧
    (∀ i j k, i < arr.Len → j < arr.Len → k < arr.Len →
      arr.Less i j = some true → arr.Less j k = some true → arr.Less i k = some true) ∧
    (∀ i j, i < arr.Len → j < arr.Len →
      ((arr.Less i j = some false ∧ arr.Less j i = some false) ↔
        arr.blockNo i = arr.blockNo j)) ∧
    (∀ i j, i < arr.Len → j < arr.Len →
      ∃ arr1 : BlockCrcArr, arr.Swap i j = some arr1 ∧
        arr1[i]? = arr[j]? ∧ arr1[j]? = arr[i]? ∧
        (∀ k, k ≠ i → k ≠ j → arr1[k]? = arr[k]?) ∧
        arr1.Len = arr.Len ∧ List.Perm arr1 arr) ∧
    (arr.IsSorted = some true ↔
      ∀ i j, i ≤ j → j < arr.Len → arr.blockNo i ≤ arr.blockNo j) ∧
    (arr.IsSorted = some false ↔
      ¬ ∀ i j, i ≤ j → j < arr.Len → arr.blockNo i ≤ arr.blockNo j) := by
  have hless := arr.Less_eq hnn
  have hsorted := arr.isSortedLoop_eq hnn (arr.Len - 1) (le_refl _)
  refine ⟨hless, ?_, ?_, ?_, ?_, ?_, ?_, ?_⟩
  · intro i hi
    rw [hless i i hi hi]
    simp
  · intro i j hi hj h
    rw [hless i j hi hj] at h
    rw [hless j i hj hi]
    simp only [Option.some.injEq, decide_eq_true_eq] at h
    simp only [Option.some.injEq, decide_eq_false_iff_not, not_lt]
    exact le_of_lt h
  · intro i j k hi hj hk h1 h2
    rw [hless i j hi hj] at h1
    rw [hless j k hj hk] at h2
    rw [hless i k hi hk]
    simp only [Option.some.injEq, decide_eq_true_eq] at h1 h2 ⊢
    exact lt_trans h1 h2
  · intro i j hi hj
    rw [hless i j hi hj, hless j i hj hi]
    simp only [Option.some.injEq, decide_eq_false_iff_not, not_lt]
    constructor
    · rintro ⟨h1, h2⟩
      exact le_antisymm h2 h1
    · intro h
      exact ⟨le_of_eq h.symm, le_of_eq h⟩
  · intro i j hi hj
    have hi1 : i < arr.length := hi
    have hj1 : j < arr.length := hj
    refine ⟨(arr.set i arr[j]).set j arr[i], ?_, ?_, ?_, ?_, ?_, ?_⟩
    · simp only [BlockCrcArr.Swap, List.getElem?_eq_getElem hi1, List.getElem?_eq_getElem hj1]
    · by_cases hij : i = j
      · subst hij
        simp [List.getElem?_set, hi1]
      · rw [List.getElem?_set_ne (Ne.symm hij), List.getElem?_set, if_pos rfl, if_pos hi1,
          List.getElem?_eq_getElem hj1]
    · rw [List.getElem?_set, if_pos rfl, if_pos (by rw [List.length_set]; exact hj1),
        List.getElem?_eq_getElem hi1]
    · intro k hki hkj
      rw [List.getElem?_set_ne (Ne.symm hkj), List.getElem?_set_ne (Ne.symm hki)]
    · simp [BlockCrcArr.Len]
    · exact swap_perm arr i j hi1 hj1
  · rw [BlockCrcArr.IsSorted, hsorted, ← arr.adjacent_iff_monotone]
    simp
  · rw [BlockCrcArr.IsSorted, hsorted, ← arr.adjacent_iff_monotone]
    simp

/-- C9, witness: a three-element array out of order; `Less(1, 0)` compares block numbers 1
and 3. -/
theorem BlockCrcArr_sort_interface_witness :
    BlockCrcArr.Less [some ⟨3, 10⟩, some ⟨1, 20⟩, some ⟨2, 30⟩] 1 0 =
      some (decide (BlockCrcArr.blockNo [some ⟨3, 10⟩, some ⟨1, 20⟩, some ⟨2, 30⟩] 1 <
        BlockCrcArr.blockNo [some ⟨3, 10⟩, some ⟨1, 20⟩, some ⟨2, 30⟩] 0)) :=
  (BlockCrcArr_sort_interface [some ⟨3, 10⟩, some ⟨1, 20⟩, some ⟨2, 30⟩] (by decide)).1 1 0
    (by decide) (by decide)

end ecstorage

namespace metanode

/-! ## `RandString` -/

theorem byteOfInt_Intn (r : Rand) :
    65 ≤ byteOfInt ((r.Intn 26).1 + 65) ∧ byteOfInt ((r.Intn 26).1 + 65) ≤ 90 := by
  simp only [byteOfInt, Rand.Intn]
  have h : r.next.1 % 26 < 26 := Nat.mod_lt _ (by norm_num)
  have e : ((Int.ofNat (r.next.1 % 26) + 65) % 256).toNat = r.next.1 % 26 + 65 := by
    simp only [Int.ofNat_eq_coe]
    omega
  rw [e]
  omega

/-- The state of the loop of `RandString` after `k` passes: the slice keeps its length and
its first `k` cells hold upper-case letters. -/
theorem RandString_loop (n : Nat) (r : Rand) (k : Nat) (hk : k ≤ n) :
    ((List.range k).foldl (fun (p : List Nat × Rand) (i : Nat) =>
        ((p.1.set i (byteOfInt ((p.2.Intn 26).1 + 65))), (p.2.Intn 26).2))
      (ecstorage.make n, r)).1.length = n ∧
    ∀ j, j < k → ∃ b, ((List.range k).foldl (fun (p : List Nat × Rand) (i : Nat) =>
        ((p.1.set i (byteOfInt ((p.2.Intn 26).1 + 65))), (p.2.Intn 26).2))
      (ecstorage.make n, r)).1[j]? = some b ∧ 65 ≤ b ∧ b ≤ 90 := by
  induction k with
  | zero =>
    refine ⟨by simp [ecstorage.make], ?_⟩
    intro j hj
    exact absurd hj (Nat.not_lt_zero j)
  | succ k ih =>
    obtain ⟨hlen, hcells⟩ := ih (Nat.le_of_succ_le hk)
    rw [List.range_succ, List.foldl_append]
    simp only [List.foldl_cons, List.foldl_nil]
    refine ⟨by rw [List.length_set]; exact hlen, ?_⟩
    intro j hj
    by_cases hjk : j = k
    · subst hjk
      rw [List.getElem?_set, if_pos rfl, if_pos (by rw [hlen]; exact hk)]
      exact ⟨_, rfl, byteOfInt_Intn _⟩
    · obtain ⟨b, hb, hr⟩ := hcells j (by omega)
      exact ⟨b, by rw [List.getElem?_set_ne (Ne.symm hjk)]; exact hb, hr⟩

theorem RandString_eq (r : Rand) (n : ℤ) (hn : 0 ≤ n) :
    RandString r n = some ((List.range n.toNat).foldl (fun (p : List Nat × Rand) (i : Nat) =>
        ((p.1.set i (byteOfInt ((p.2.Intn 26).1 + 65))), (p.2.Intn 26).2))
      (ecstorage.make n.toNat, r)) := by
  rw [RandString, if_neg (not_lt.mpr hn)]

theorem RandString_spec (r : Rand) (n : ℤ) (hn : 0 ≤ n) :
    ∃ s r1, RandString r n = some (s, r1) ∧ s.length = n.toNat ∧
      ∀ b ∈ s, 65 ≤ b ∧ b ≤ 90 := by
  obtain ⟨hlen, hcells⟩ := RandString_loop n.toNat r n.toNat (le_refl _)
  rw [RandString_eq r n hn]
  refine ⟨_, _, rfl, hlen, ?_⟩
  intro b hb
  obtain ⟨j, hj, hjb⟩ := List.getElem_of_mem hb
  obtain ⟨b1, hb1, hr⟩ := hcells j (by rw [← hlen]; exact hj)
  rw [List.getElem?_eq_getElem hj, hjb] at hb1
  cases hb1
  exact hr

/-! ## The ordered index -/

section OrderedIndexLemmas

variable {κ α : Type} [LinearOrder κ] (key : α → κ)

theorem OrderedIndex.mem_insertIfAbsent (v : α) (l : List α) (x : α)
    (hx : x ∈ (OrderedIndex.insertIfAbsent key v l).1) : x = v ∨ x ∈ l := by
  induction l with
  | nil =>
    simp only [OrderedIndex.insertIfAbsent, List.mem_singleton] at hx
    exact Or.inl hx
  | cons y ys ih =>
    simp only [OrderedIndex.insertIfAbsent] at hx
    split_ifs at hx with h1 h2
    · rcases List.mem_cons.mp hx with h | h
      · exact Or.inl h
      · exact Or.inr h
    · exact Or.inr hx
    · rcases List.mem_cons.mp hx with h | h
      · exact Or.inr (h ▸ List.mem_cons_self _ _)
      · rcases ih h with h3 | h3
        · exact Or.inl h3
        · exact Or.inr (List.mem_cons_of_mem _ h3)

theorem OrderedIndex.subset_insertIfAbsent (v : α) (l : List α) (x : α) (hx : x ∈ l) :
    x ∈ (OrderedIndex.insertIfAbsent key v l).1 := by
  induction l with
  | nil => exact absurd hx (List.not_mem_nil x)
  | cons y ys ih =>
    simp only [OrderedIndex.insertIfAbsent]
    split_ifs with h1 h2
    · exact List.mem_cons_of_mem _ hx
    · exact hx
    · rcases List.mem_cons.mp hx with h | h
      · exact h ▸ List.mem_cons_self _ _
      · exact List.mem_cons_of_mem _ (ih h)

theorem OrderedIndex.insertIfAbsent_wf (v : α) (l : List α) (hl : OrderedIndex.WF key l) :
    OrderedIndex.WF key (OrderedIndex.insertIfAbsent key v l).1 := by
  induction l with
  | nil => simp [OrderedIndex.insertIfAbsent, OrderedIndex.WF]
  | cons y ys ih =>
    have hy := (List.pairwise_cons.mp hl).1
    have hys : OrderedIndex.WF key ys := (List.pairwise_cons.mp hl).2
    simp only [OrderedIndex.insertIfAbsent]
    split_ifs with h1 h2
    · refine List.pairwise_cons.mpr ⟨?_, hl⟩
      intro a ha
      rcases List.mem_cons.mp ha with h | h
      · exact h ▸ h1
      · exact lt_trans h1 (hy a h)
    · exact hl
    · refine List.pairwise_cons.mpr ⟨?_, ih hys⟩
      intro a ha
      rcases OrderedIndex.mem_insertIfAbsent key v ys a ha with h | h
      · rw [h]
        exact lt_of_le_of_ne (not_lt.mp h1) (Ne.symm h2)
      · exact hy a h

theorem OrderedIndex.length_insertIfAbsent (v : α) (l : List α) :
    (OrderedIndex.insertIfAbsent key v l).1.length =
      l.length + (if (OrderedIndex.insertIfAbsent key v l).2 then 1 else 0) := by
  induction l with
  | nil => simp [OrderedIndex.insertIfAbsent]
  | cons y ys ih =>
    simp only [OrderedIndex.insertIfAbsent]
    split_ifs with h1 h2 h3 h3
    all_goals simp_all

theorem OrderedIndex.insertIfAbsent_of_not_ok (v : α) (l : List α)
    (h : (OrderedIndex.insertIfAbsent key v l).2 = false) :
    (OrderedIndex.insertIfAbsent key v l).1 = l := by
  induction l with
  | nil => simp [OrderedIndex.insertIfAbsent] at h
  | cons y ys ih =>
    simp only [OrderedIndex.insertIfAbsent] at h ⊢
    split_ifs at h ⊢ with h1 h2
    · rfl
    · show y :: (OrderedIndex.insertIfAbsent key v ys).1 = y :: ys
      rw [ih h]

theorem OrderedIndex.mem_insertIfAbsent_of_ok (v : α) (l : List α)
    (h : (OrderedIndex.insertIfAbsent key v l).2 = true) :
    v ∈ (OrderedIndex.insertIfAbsent key v l).1 := by
  induction l with
  | nil => simp [OrderedIndex.insertIfAbsent]
  | cons y ys ih =>
    simp only [OrderedIndex.insertIfAbsent] at h ⊢
    split_ifs at h ⊢ with h1 h2
    · exact List.mem_cons_self _ _
    · exact List.mem_cons_of_mem _ (ih h)

/-- On a well-formed index insert-if-absent reports `ok` exactly when no entry has the key. -/
theorem OrderedIndex.insertIfAbsent_ok_iff (v : α) (l : List α) (hl : OrderedIndex.WF key l) :
    (OrderedIndex.insertIfAbsent key v l).2 = true ↔ ∀ x ∈ l, key x ≠ key v := by
  induction l with
  | nil => simp [OrderedIndex.insertIfAbsent]
  | cons y ys ih =>
    have hy := (List.pairwise_cons.mp hl).1
    have hys : OrderedIndex.WF key ys := (List.pairwise_cons.mp hl).2
    simp only [OrderedIndex.insertIfAbsent]
    split_ifs with h1 h2
    · refine ⟨fun _ a ha => ?_, fun _ => rfl⟩
      rcases List.mem_cons.mp ha with h | h
      · rw [h]; exact ne_of_gt h1
      · exact ne_of_gt (lt_trans h1 (hy a h))
    · refine ⟨fun h => by simp at h, fun h => ?_⟩
      exact absurd h2.symm (h y (List.mem_cons_self _ _))
    · rw [ih hys]
      refine ⟨fun h a ha => ?_, fun h a ha => h a (List.mem_cons_of_mem _ ha)⟩
      rcases List.mem_cons.mp ha with h3 | h3
      · rw [h3]; exact Ne.symm h2
      · exact h a h3

theorem OrderedIndex.WF.nodup_keys {l : List α} (hl : OrderedIndex.WF key l) :
    (l.map key).Nodup := by
  rw [List.Nodup, List.pairwise_map]
  exact List.Pairwise.imp (fun h => ne_of_lt h) hl

theorem OrderedIndex.WF.nodup {l : List α} (hl : OrderedIndex.WF key l) : l.Nodup :=
  List.Pairwise.imp (fun h heq => absurd (heq ▸ h) (lt_irrefl _)) hl

theorem OrderedIndex.get_eq_some_of_nodup {l : List α} (hl : (l.map key).Nodup) (x : α)
    (hx : x ∈ l) : OrderedIndex.get key (key x) l = some x := by
  induction l with
  | nil => exact absurd hx (List.not_mem_nil x)
  | cons y ys ih =>
    rw [List.map_cons, List.nodup_cons] at hl
    simp only [OrderedIndex.get, List.find?_cons]
    rcases List.mem_cons.mp hx with h | h
    · subst h; simp
    · have : key y ≠ key x := fun heq => hl.1 (heq ▸ List.mem_map_of_mem key h)
      simp only [this, decide_False]
      exact ih hl.2 h

theorem OrderedIndex.get_eq_some_of_mem {l : List α} (hl : OrderedIndex.WF key l) (x : α)
    (hx : x ∈ l) : OrderedIndex.get key (key x) l = some x :=
  OrderedIndex.get_eq_some_of_nodup key (OrderedIndex.WF.nodup_keys key hl) x hx

theorem OrderedIndex.get_eq_none {l : List α} (k : κ) (h : ∀ x ∈ l, key x ≠ k) :
    OrderedIndex.get key k l = none := by
  simp only [OrderedIndex.get, List.find?_eq_none, decide_eq_true_eq]
  exact h

theorem OrderedIndex.mem_of_get_eq_some {l : List α} (k : κ) (x : α)
    (h : OrderedIndex.get key k l = some x) : x ∈ l ∧ key x = k := by
  have h1 := List.find?_some h
  exact ⟨List.mem_of_find?_eq_some h, by simpa using h1⟩

theorem OrderedIndex.eq_of_perm {l1 l2 : List α} (h1 : OrderedIndex.WF key l1)
    (h2 : OrderedIndex.WF key l2) (hperm : List.Perm l1 l2) : l1 = l2 := by
  have hanti : IsAntisymm α (fun a b => key a < key b) :=
    ⟨fun a b hab hba => absurd (lt_trans hab hba) (lt_irrefl _)⟩
  exact List.eq_of_perm_of_sorted hperm h1 h2

/-- Two indexes with unique keys that hold the same entries answer every lookup alike. -/
theorem OrderedIndex.get_eq_of_perm {l1 l2 : List α} (h1 : (l1.map key).Nodup)
    (h2 : (l2.map key).Nodup) (hperm : List.Perm l1 l2) (k : κ) :
    OrderedIndex.get key k l1 = OrderedIndex.get key k l2 := by
  cases hg : OrderedIndex.get key k l1 with
  | some x =>
    obtain ⟨hx, hk⟩ := OrderedIndex.mem_of_get_eq_some key k x hg
    rw [← hk]
    exact (OrderedIndex.get_eq_some_of_nodup key h2 x (hperm.subset hx)).symm
  | none =>
    refine (OrderedIndex.get_eq_none key k ?_).symm
    intro x hx hk
    have hx1 : x ∈ l1 := hperm.symm.subset hx
    rw [← hk, OrderedIndex.get_eq_some_of_nodup key h1 x hx1] at hg
    exact absurd hg (by simp)

end OrderedIndexLemmas

theorem OrderedIndex.perm_of_subset_of_length {κ α : Type} (key : α → κ) {l1 l2 : List α}
    (h1 : (l1.map key).Nodup) (hsub : ∀ x ∈ l1, x ∈ l2) (hlen : l1.length = l2.length) :
    List.Perm l1 l2 :=
  (List.subperm_of_subset (List.Nodup.of_map key h1) hsub).perm_of_length_le
    (le_of_eq hlen.symm)

/-! ## The oracle `checkMPInodeAndDentry` -/

theorem checkMPInodeAndDentry_eq_true_iff (mp1 mp2 : MetaPartition) :
    checkMPInodeAndDentry mp1 mp2 = true ↔
      (mp1.inodeTree.Count = mp2.inodeTree.Count ∧ mp1.inodeTree.Count = count) ∧
      (∀ ino1 ∈ mp1.inodeTree, mp2.inodeTree.Get ino1.Inode = some ino1) ∧
      (mp1.dentryTree.Count = mp2.dentryTree.Count ∧ mp2.dentryTree.Count = count) ∧
      (∀ d1 ∈ mp1.dentryTree, mp2.dentryTree.Get d1.ParentId d1.Name = some d1) := by
  unfold checkMPInodeAndDentry
  simp only [InodeTree.Range, DentryTree.Range, OrderedIndex.range]
  split_ifs with h1 h2 h3
  · simp only [Bool.false_eq_true, false_iff]
    rintro ⟨⟨ha, hb⟩, -⟩
    rcases h1 with h | h
    · exact h ha
    · exact h hb
  · simp only [Bool.false_eq_true, false_iff]
    rintro ⟨-, hall, -⟩
    simp only [Bool.not_eq_true', List.all_eq_false, decide_eq_true_eq] at h2
    obtain ⟨x, hx, hne⟩ := h2
    exact hne (hall x hx).symm
  · simp only [Bool.false_eq_true, false_iff]
    rintro ⟨-, -, ⟨ha, hb⟩, -⟩
    rcases h3 with h | h
    · exact h ha
    · exact h hb
  · simp only [not_or, not_not] at h1 h3
    simp only [Bool.not_eq_true', Bool.not_eq_false, List.all_eq_true, decide_eq_true_eq] at h2
    simp only [List.all_eq_true, decide_eq_true_eq]
    constructor
    · intro h
      exact ⟨h1, fun x hx => (h2 x hx).symm, h3, fun x hx => (h x hx).symm⟩
    · rintro ⟨-, -, -, h⟩
      exact fun x hx => (h x hx).symm

/-- C5. The oracle `checkMPInodeAndDentry` is sound for index equality: when the indexes of
both partitions have unique keys and the check passes, the inode indexes are equal as maps
and the dentry indexes are equal as maps: every lookup gives the same answer in both
partitions and both hold the same entries, so `mp2` holds no entry that `mp1` lacks; all four
counts are `count`; and indexes kept in key order are equal as sequences. -/
theorem checkMPInodeAndDentry_sound (mp1 mp2 : MetaPartition)
    (hi1 : (mp1.inodeTree.map Inode.key).Nodup) (hi2 : (mp2.inodeTree.map Inode.key).Nodup)
    (hd1 : (mp1.dentryTree.map Dentry.key).Nodup) (hd2 : (mp2.dentryTree.map Dentry.key).Nodup)
    (h : checkMPInodeAndDentry mp1 mp2 = true) :
    (∀ ino, mp1.inodeTree.Get ino = mp2.inodeTree.Get ino) ∧
    (∀ parentId name, mp1.dentryTree.Get parentId name = mp2.dentryTree.Get parentId name) ∧
    (∀ ino, ino ∈ mp1.inodeTree ↔ ino ∈ mp2.inodeTree) ∧
    (∀ d, d ∈ mp1.dentryTree ↔ d ∈ mp2.dentryTree) ∧
    (mp1.inodeTree.Count = count ∧ mp2.inodeTree.Count = count ∧
      mp1.dentryTree.Count = count ∧ mp2.dentryTree.Count = count) ∧
    (OrderedIndex.WF Inode.key mp1.inodeTree → OrderedIndex.WF Inode.key mp2.inodeTree →
      mp1.inodeTree = mp2.inodeTree) ∧
    (OrderedIndex.WF Dentry.key mp1.dentryTree → OrderedIndex.WF Dentry.key mp2.dentryTree →
      mp1.dentryTree = mp2.dentryTree) := by
  obtain ⟨⟨hc1, hc2⟩, hino, ⟨hc3, hc4⟩, hden⟩ := (checkMPInodeAndDentry_eq_true_iff mp1 mp2).mp h
  have p1 : List.Perm mp1.inodeTree mp2.inodeTree :=
    OrderedIndex.perm_of_subset_of_length Inode.key hi1
      (fun x hx => (OrderedIndex.mem_of_get_eq_some Inode.key x.Inode x (hino x hx)).1) hc1
  have p2 : List.Perm mp1.dentryTree mp2.dentryTree :=
    OrderedIndex.perm_of_subset_of_length Dentry.key hd1
      (fun x hx => (OrderedIndex.mem_of_get_eq_some Dentry.key (toLex (x.ParentId, x.Name)) x
        (hden x hx)).1) hc3
  refine ⟨fun ino => OrderedIndex.get_eq_of_perm Inode.key hi1 hi2 p1 ino,
    fun parentId name => OrderedIndex.get_eq_of_perm Dentry.key hd1 hd2 p2 _,
    fun ino => p1.mem_iff, fun d => p2.mem_iff,
    ⟨hc2, by rw [← hc1]; exact hc2, by rw [hc3]; exact hc4, hc4⟩,
    fun w1 w2 => OrderedIndex.eq_of_perm Inode.key w1 w2 p1,
    fun w1 w2 => OrderedIndex.eq_of_perm Dentry.key w1 w2 p2⟩

theorem samplePartition_inode_wf (n : Nat) :
    OrderedIndex.WF Inode.key (samplePartition n).inodeTree := by
  simp only [OrderedIndex.WF, samplePartition, List.pairwise_map, Inode.key, NewInode]
  exact List.Pairwise.imp (fun h => Nat.succ_lt_succ h) (List.pairwise_lt_range count)

theorem samplePartition_dentry_wf (n : Nat) :
    OrderedIndex.WF Dentry.key (samplePartition n).dentryTree := by
  simp only [OrderedIndex.WF, samplePartition, List.pairwise_map, Dentry.key]
  refine List.Pairwise.imp (fun {a b} h => ?_) (List.pairwise_lt_range count)
  exact Prod.Lex.left _ _ (Nat.succ_lt_succ h)

theorem checkMPInodeAndDentry_samplePartition (m n : Nat) :
    checkMPInodeAndDentry (samplePartition m) (samplePartition n) = true := by
  rw [checkMPInodeAndDentry_eq_true_iff]
  have hci : ∀ k, (samplePartition k).inodeTree.Count = count := fun k => by
    simp only [samplePartition, InodeTree.Count, List.length_map, List.length_range]
  have hcd : ∀ k, (samplePartition k).dentryTree.Count = count := fun k => by
    simp only [samplePartition, DentryTree.Count, List.length_map, List.length_range]
  refine ⟨⟨by rw [hci, hci], hci m⟩, ?_, ⟨by rw [hcd, hcd], hcd n⟩, ?_⟩
  · intro x hx
    exact OrderedIndex.get_eq_some_of_mem Inode.key (samplePartition_inode_wf n) x hx
  · intro x hx
    exact OrderedIndex.get_eq_some_of_mem Dentry.key (samplePartition_dentry_wf n) x hx

/-- C5, witness: two partitions with different identifiers holding the same `count` inodes
and dentries pass the check, and their inode indexes are equal. -/
theorem checkMPInodeAndDentry_sound_witness :
    (samplePartition 1).inodeTree = (samplePartition 2).inodeTree :=
  (checkMPInodeAndDentry_sound (samplePartition 1) (samplePartition 2)
    (OrderedIndex.WF.nodup_keys Inode.key (samplePartition_inode_wf 1))
    (OrderedIndex.WF.nodup_keys Inode.key (samplePartition_inode_wf 2))
    (OrderedIndex.WF.nodup_keys Dentry.key (samplePartition_dentry_wf 1))
    (OrderedIndex.WF.nodup_keys Dentry.key (samplePartition_dentry_wf 2))
    (checkMPInodeAndDentry_samplePartition 1 2)).2.2.2.2.2.1
    (samplePartition_inode_wf 1) (samplePartition_inode_wf 2)

/-! ## `genInode` -/

theorem genInode.extents_fold_Inode (l : List Nat) (p : Inode × Rand) :
    (l.foldl (fun (p : Inode × Rand) (j : Nat) =>
      let (partitionId, r) := p.2.Uint64
      let (extentId, r) := r.Uint64
      let (extentOffset, r) := r.Uint64
      let (size, r) := r.Uint32
      let ek : ExtentKey :=
        { FileOffset := j * 1024 * 4, PartitionId := partitionId, ExtentId := extentId,
          ExtentOffset := extentOffset, Size := size, CRC := 0 }
      ({ p.1 with Extents := ExtentsAppend p.1.Extents ek }, r)) p).1.Inode = p.1.Inode := by
  induction l generalizing p with
  | nil => rfl
  | cons j js ih =>
    rw [List.foldl_cons, ih]

theorem genInode.extents_Inode (ino : Inode) (r : Rand) :
    (genInode.extents ino r).1.Inode = ino.Inode :=
  genInode.extents_fold_Inode (List.range 10) (ino, r)

/-- One pass of the loop of `genInode` draws an identifier in `[1, 1000000000]`, raises
`maxInode` to it, and runs insert-if-absent with an inode carrying that identifier. -/
theorem genInode_body_spec (r : Rand) (tree : InodeTree) (maxInode : Nat) :
    ∃ ino : Inode, ino.Inode = r.Uint64.1 % 1000000000 + 1 ∧
      (genInode.body r tree maxInode).1 = (OrderedIndex.insertIfAbsent Inode.key ino tree).1 ∧
      (genInode.body r tree maxInode).2.2.2 = (OrderedIndex.insertIfAbsent Inode.key ino tree).2 ∧
      (genInode.body r tree maxInode).2.2.1 = max (r.Uint64.1 % 1000000000 + 1) maxInode := by
  have hmax : ∀ a b : Nat, (if a > b then a else b) = max a b := by
    intro a b
    split_ifs with h
    · exact (max_eq_left (le_of_lt h)).symm
    · exact (max_eq_right (not_lt.mp h)).symm
  by_cases h997 : (r.Uint64.1 % 1000000000 + 1) % 997 = 0
  · refine ⟨(genInode.extents { NewInode (r.Uint64.1 % 1000000000 + 1) 0 with
        LinkTarget := (NewInode (r.Uint64.1 % 1000000000 + 1) 0).LinkTarget ++ testTarget,
        Typ := r.Uint64.2.Uint32.1 } r.Uint64.2.Uint32.2).1, ?_, ?_, ?_, ?_⟩
    · rw [genInode.extents_Inode]; rfl
    all_goals
      simp only [genInode.body, NewInode, h997, if_true, inodeCreate, Bool.false_eq_true,
        if_false, Bool.false_or, hmax]
      cases (OrderedIndex.insertIfAbsent Inode.key _ tree).2 <;> rfl
  · refine ⟨NewInode (r.Uint64.1 % 1000000000 + 1) 0, rfl, ?_, ?_, ?_⟩
    all_goals
      simp only [genInode.body, NewInode, h997, if_false, inodeCreate, Bool.false_eq_true,
        Bool.false_or, hmax]
      cases (OrderedIndex.insertIfAbsent Inode.key _ tree).2 <;> rfl

/-- The invariant of the loop of `genInode`: the index is well formed, holds as many entries
as the counter says, and every identifier lies in `[1, 1000000000]` and below `maxInode`. -/
theorem genInode_loop_spec (cnt : Nat) : ∀ (fuel : Nat) (r : Rand) (tree : InodeTree)
    (i maxInode : Nat) (res : Nat × InodeTree × Rand), i ≤ cnt →
    OrderedIndex.WF Inode.key tree → tree.length = i →
    (∀ x ∈ tree, 1 ≤ x.Inode ∧ x.Inode ≤ 1000000000 ∧ x.Inode ≤ maxInode) →
    genInode.loop cnt fuel r tree i maxInode = some res →
    OrderedIndex.WF Inode.key res.2.1 ∧ res.2.1.length = cnt ∧
      ∀ x ∈ res.2.1, 1 ≤ x.Inode ∧ x.Inode ≤ 1000000000 ∧ x.Inode ≤ res.1 := by
  intro fuel
  induction fuel with
  | zero =>
    intro r tree i maxInode res hi hwf hlen hb h
    simp only [genInode.loop] at h
    split_ifs at h with hlt
    simp only [Option.some.injEq] at h
    subst h
    exact ⟨hwf, by show tree.length = cnt; omega, hb⟩
  | succ fuel ih =>
    intro r tree i maxInode res hi hwf hlen hb h
    simp only [genInode.loop] at h
    split_ifs at h with hlt
    · obtain ⟨ino, hid, ht, hok, hm⟩ := genInode_body_spec r tree maxInode
      have hwf1 : OrderedIndex.WF Inode.key (genInode.body r tree maxInode).1 := by
        rw [ht]; exact OrderedIndex.insertIfAbsent_wf Inode.key ino tree hwf
      have hlen1 : (genInode.body r tree maxInode).1.length =
          i + (if (genInode.body r tree maxInode).2.2.2 then 1 else 0) := by
        rw [ht, hok, OrderedIndex.length_insertIfAbsent, hlen]
      have hb1 : ∀ x ∈ (genInode.body r tree maxInode).1,
          1 ≤ x.Inode ∧ x.Inode ≤ 1000000000 ∧ x.Inode ≤ (genInode.body r tree maxInode).2.2.1 := by
        intro x hx
        rw [hm]
        rw [ht] at hx
        rcases OrderedIndex.mem_insertIfAbsent Inode.key ino tree x hx with h1 | h1
        · have hlt9 : r.Uint64.1 % 1000000000 < 1000000000 := Nat.mod_lt _ (by norm_num)
          rw [h1, hid]
          exact ⟨by omega, by omega, le_max_left _ _⟩
        · obtain ⟨h2, h3, h4⟩ := hb x h1
          exact ⟨h2, h3, le_trans h4 (le_max_right _ _)⟩
      rcases hbody : genInode.body r tree maxInode with ⟨t1, r1, m1, b⟩
      rw [hbody] at hwf1 hlen1 hb1
      simp only [hbody] at h
      cases b with
      | true =>
        simp only at h
        exact ih r1 t1 (i + 1) m1 res (by omega) hwf1 (by simpa using hlen1) hb1 h
      | false =>
        simp only at h
        exact ih r1 t1 i m1 res hi hwf1 (by simpa using hlen1) hb1 h
    · simp only [Option.some.injEq] at h
      subst h
      exact ⟨hwf, by show tree.length = cnt; omega, hb⟩

/-- C6. `genInode` builds exactly `cnt` in-range inodes: on every run that returns, started
on a partition with an empty inode index and the range of the mock partition, the inode index
holds exactly `cnt` entries with pairwise distinct identifiers, every identifier lies in
`[1, 1000000000]` and in `[Start, End)`, and the returned `maxInode` is at least every stored
identifier and positive when `cnt` is; the dentry index and the configuration are untouched. -/
theorem genInode_spec (fuel : Nat) (r r1 : Rand) (mp mp1 : MetaPartition) (cnt maxInode : Nat)
    (hempty : mp.inodeTree = []) (hs : mp.config.Start = 1)
    (he : mp.config.End = MaxUint64 - 100)
    (h : genInode fuel r mp cnt = some (maxInode, mp1, r1)) :
    mp1.inodeTree.Count = cnt ∧
    (mp1.inodeTree.map (fun ino => ino.Inode)).Nodup ∧
    (∀ ino ∈ mp1.inodeTree, 1 ≤ ino.Inode ∧ ino.Inode ≤ 1000000000 ∧
      mp1.config.Start ≤ ino.Inode ∧ ino.Inode < mp1.config.End ∧ ino.Inode ≤ maxInode) ∧
    (0 < cnt → 0 < maxInode) ∧
    OrderedIndex.WF Inode.key mp1.inodeTree ∧
    mp1.dentryTree = mp.dentryTree ∧ mp1.config = mp.config := by
  simp only [genInode, Option.map_eq_some'] at h
  obtain ⟨res, hres, heq⟩ := h
  simp only [Prod.mk.injEq] at heq
  obtain ⟨hm, hmp, -⟩ := heq
  subst hm hmp
  obtain ⟨hwf, hlen, hb⟩ := genInode_loop_spec cnt fuel r mp.inodeTree 0 0 res (Nat.zero_le _)
    (by rw [hempty]; exact List.Pairwise.nil) (by rw [hempty]; rfl)
    (by rw [hempty]; intro x hx; exact absurd hx (List.not_mem_nil x)) hres
  refine ⟨hlen, OrderedIndex.WF.nodup_keys Inode.key hwf, ?_, ?_, hwf, rfl, rfl⟩
  · intro ino hino
    obtain ⟨h1, h2, h3⟩ := hb ino hino
    refine ⟨h1, h2, ?_, ?_, h3⟩
    · show mp.config.Start ≤ ino.Inode
      rw [hs]; exact h1
    · show ino.Inode < mp.config.End
      rw [he]
      simp only [MaxUint64]
      omega
  · intro hcnt
    cases hl : res.2.1 with
    | nil => rw [hl] at hlen; simp at hlen; omega
    | cons x xs =>
      obtain ⟨h1, -, h3⟩ := hb x (by rw [hl]; exact List.mem_cons_self _ _)
      omega

/-- C6, witness: a run on the mock partition with the draws `2, 2, 9, 9, 16`, where the
second and fourth draws repeat an identifier and are rejected, returns after five passes
with the three inodes `3, 10, 17`. -/
theorem genInode_spec_witness :
    InodeTree.Count [NewInode 3 0, NewInode 10 0, NewInode 17 0] = 3 :=
  (genInode_spec 5 ⟨fun n => n / 2 * 7 + 2, 0⟩ ⟨fun n => n / 2 * 7 + 2, 5⟩
    (mockMetaPartition 1 1 StoreMode.StoreModeMem "./partition_1")
    { mockMetaPartition 1 1 StoreMode.StoreModeMem "./partition_1" with
      inodeTree := [NewInode 3 0, NewInode 10 0, NewInode 17 0] }
    3 17 rfl rfl rfl rfl).1

/-! ## `genDentry` -/

/-- One pass of the loop of `genDentry` never panics; it either skips the draw, leaving the
index alone, or runs insert-if-absent with a dentry satisfying `genDentry.Good`. -/
theorem genDentry_body_spec (r : Rand) (tree : DentryTree) (maxInode : Nat) :
    ∃ res, genDentry.body r tree maxInode = some res ∧
      ((res.1 = tree ∧ res.2.2 = false) ∨
        ∃ d : Dentry, genDentry.Good maxInode d ∧
          res.1 = (OrderedIndex.insertIfAbsent Dentry.key d tree).1 ∧
          res.2.2 = (OrderedIndex.insertIfAbsent Dentry.key d tree).2) := by
  by_cases hp : r.Uint64.1 % 1000000000 + 1 > maxInode
  · refine ⟨(tree, r.Uint64.2.Uint64.2, false), ?_, Or.inl ⟨rfl, rfl⟩⟩
    simp only [genDentry.body, hp, if_true]
  · have hn : (0 : ℤ) ≤ r.Uint64.2.Uint64.2.Uint32.2.Int.1 % 100 + 10 := by
      have := Int.emod_nonneg r.Uint64.2.Uint64.2.Uint32.2.Int.1 (by norm_num : (100 : ℤ) ≠ 0)
      omega
    have hn2 : (r.Uint64.2.Uint64.2.Uint32.2.Int.1 % 100 + 10).toNat ≤ 109 ∧
        10 ≤ (r.Uint64.2.Uint64.2.Uint32.2.Int.1 % 100 + 10).toNat := by
      have h1 := Int.emod_nonneg r.Uint64.2.Uint64.2.Uint32.2.Int.1 (by norm_num : (100 : ℤ) ≠ 0)
      have h2 := Int.emod_lt_of_pos r.Uint64.2.Uint64.2.Uint32.2.Int.1 (by norm_num : (0 : ℤ) < 100)
      omega
    obtain ⟨name, r1, hrs, hlen, hbytes⟩ :=
      RandString_spec r.Uint64.2.Uint64.2.Uint32.2.Int.2 _ hn
    have h9 : r.Uint64.1 % 1000000000 < 1000000000 := Nat.mod_lt _ (by norm_num)
    have h9' : r.Uint64.2.Uint64.1 % 1000000000 < 1000000000 := Nat.mod_lt _ (by norm_num)
    refine ⟨((OrderedIndex.insertIfAbsent Dentry.key
        { ParentId := r.Uint64.1 % 1000000000 + 1, Name := name,
          Inode := r.Uint64.2.Uint64.1 % 1000000000 + 1,
          Typ := r.Uint64.2.Uint64.2.Uint32.1 } tree).1, r1,
        (OrderedIndex.insertIfAbsent Dentry.key
        { ParentId := r.Uint64.1 % 1000000000 + 1, Name := name,
          Inode := r.Uint64.2.Uint64.1 % 1000000000 + 1,
          Typ := r.Uint64.2.Uint64.2.Uint32.1 } tree).2), ?_, Or.inr ⟨_, ?_, rfl, rfl⟩⟩
    · simp only [genDentry.body, hp, if_false, hrs, dentryCreate, Bool.false_eq_true,
        Bool.false_or]
      cases (OrderedIndex.insertIfAbsent Dentry.key _ tree).2 <;> rfl
    · refine ⟨by simp, by simp only; omega, by simp only; omega, by simp,
        by simp only; omega, by simp only; omega, by simp only; omega, hbytes⟩

theorem genDentry_loop_spec (cnt maxInode : Nat) : ∀ (fuel : Nat) (r : Rand) (tree : DentryTree)
    (i : Nat) (res : DentryTree × Rand), i ≤ cnt →
    OrderedIndex.WF Dentry.key tree → tree.length = i →
    (∀ d ∈ tree, genDentry.Good maxInode d) →
    genDentry.loop cnt maxInode fuel r tree i = some res →
    OrderedIndex.WF Dentry.key res.1 ∧ res.1.length = cnt ∧
      ∀ d ∈ res.1, genDentry.Good maxInode d := by
  intro fuel
  induction fuel with
  | zero =>
    intro r tree i res hi hwf hlen hb h
    simp only [genDentry.loop] at h
    split_ifs at h with hlt
    simp only [Option.some.injEq] at h
    subst h
    exact ⟨hwf, by show tree.length = cnt; omega, hb⟩
  | succ fuel ih =>
    intro r tree i res hi hwf hlen hb h
    simp only [genDentry.loop] at h
    split_ifs at h with hlt
    · obtain ⟨⟨t1, r1, b⟩, hbody, hcase⟩ := genDentry_body_spec r tree maxInode
      have hwf1 : OrderedIndex.WF Dentry.key t1 := by
        rcases hcase with ⟨h1, -⟩ | ⟨d, -, h1, -⟩
        · rw [show t1 = tree from h1]; exact hwf
        · rw [show t1 = _ from h1]; exact OrderedIndex.insertIfAbsent_wf Dentry.key d tree hwf
      have hlen1 : t1.length = i + (if b then 1 else 0) := by
        rcases hcase with ⟨h1, h2⟩ | ⟨d, -, h1, h2⟩
        · rw [show t1 = tree from h1, show b = false from h2, hlen]; rfl
        · rw [show t1 = _ from h1, show b = _ from h2, OrderedIndex.length_insertIfAbsent, hlen]
      have hb1 : ∀ d ∈ t1, genDentry.Good maxInode d := by
        rcases hcase with ⟨h1, -⟩ | ⟨d, hd, h1, -⟩
        · rw [show t1 = tree from h1]; exact hb
        · intro x hx
          rw [show t1 = _ from h1] at hx
          rcases OrderedIndex.mem_insertIfAbsent Dentry.key d tree x hx with h3 | h3
          · rw [h3]; exact hd
          · exact hb x h3
      simp only [hbody] at h
      cases b with
      | true =>
        simp only at h
        exact ih r1 t1 (i + 1) res (by omega) hwf1 (by simpa using hlen1) hb1 h
      | false =>
        simp only at h
        exact ih r1 t1 i res hi hwf1 (by simpa using hlen1) hb1 h
    · simp only [Option.some.injEq] at h
      subst h
      exact ⟨hwf, by show tree.length = cnt; omega, hb⟩

theorem genDentry_loop_of_eq (fuel : Nat) (r r1 : Rand) (mp mp1 : MetaPartition)
    (cnt maxInode : Nat) (hempty : mp.dentryTree = [])
    (h : genDentry fuel r mp cnt maxInode = some (mp1, r1)) :
    OrderedIndex.WF Dentry.key mp1.dentryTree ∧ mp1.dentryTree.length = cnt ∧
    (∀ d ∈ mp1.dentryTree, genDentry.Good maxInode d) ∧
    mp1.inodeTree = mp.inodeTree ∧ mp1.config = mp.config := by
  simp only [genDentry, Option.map_eq_some'] at h
  obtain ⟨res, hres, heq⟩ := h
  simp only [Prod.mk.injEq] at heq
  obtain ⟨hmp, -⟩ := heq
  subst hmp
  obtain ⟨hwf, hlen, hb⟩ := genDentry_loop_spec cnt maxInode fuel r mp.dentryTree 0 res
    (Nat.zero_le _) (by rw [hempty]; exact List.Pairwise.nil) (by rw [hempty]; rfl)
    (by rw [hempty]; intro x hx; exact absurd hx (List.not_mem_nil x)) hres
  exact ⟨hwf, hlen, hb, rfl, rfl⟩

/-- C7. `genDentry` generates internally consistent keys: on every run that returns, started
on an empty dentry index, the index holds exactly `cnt` dentries with pairwise distinct
`(ParentId, Name)` keys, every stored dentry has `1 <= ParentId <= min(maxInode, 1000000000)`
and `1 <= Inode <= 1000000000`, so none has `ParentId > maxInode`; the inode index and the
configuration are untouched. -/
theorem genDentry_spec (fuel : Nat) (r r1 : Rand) (mp mp1 : MetaPartition) (cnt maxInode : Nat)
    (hempty : mp.dentryTree = [])
    (h : genDentry fuel r mp cnt maxInode = some (mp1, r1)) :
    mp1.dentryTree.Count = cnt ∧
    (mp1.dentryTree.map (fun d => (d.ParentId, d.Name))).Nodup ∧
    (∀ d ∈ mp1.dentryTree, 1 ≤ d.ParentId ∧ d.ParentId ≤ min maxInode 1000000000 ∧
      1 ≤ d.Inode ∧ d.Inode ≤ 1000000000 ∧ ¬ d.ParentId > maxInode) ∧
    OrderedIndex.WF Dentry.key mp1.dentryTree ∧
    mp1.inodeTree = mp.inodeTree ∧ mp1.config = mp.config := by
  obtain ⟨hwf, hlen, hb, hi, hc⟩ := genDentry_loop_of_eq fuel r r1 mp mp1 cnt maxInode hempty h
  refine ⟨hlen, ?_, ?_, hwf, hi, hc⟩
  · rw [List.Nodup, List.pairwise_map]
    refine List.Pairwise.imp (fun {a b} hab heq => ?_) hwf
    have hk : Dentry.key a = Dentry.key b := congrArg toLex heq
    rw [hk] at hab
    exact lt_irrefl _ hab
  · intro d hd
    obtain ⟨h1, h2, h3, h4, h5, -⟩ := hb d hd
    exact ⟨h1, le_min h3 h2, h4, h5, not_lt.mpr h3⟩

/-- C7, witness: a run with `maxInode = 17` whose first draw, parent 51, is skipped and whose
next two passes store the dentries `(1, "EFGHIJKLMN")` and `(15, "STUVWXYZAB")`. -/
theorem genDentry_spec_witness :
    DentryTree.Count
      [{ ParentId := 1, Name := [69, 70, 71, 72, 73, 74, 75, 76, 77, 78], Inode := 2, Typ := 2 },
       { ParentId := 15, Name := [83, 84, 85, 86, 87, 88, 89, 90, 65, 66], Inode := 16,
         Typ := 16 }] = 2 :=
  (genDentry_spec 3
    ⟨fun n => if n < 2 then 50 + n else if n % 14 = 5 then 0 else n - 2, 0⟩
    ⟨fun n => if n < 2 then 50 + n else if n % 14 = 5 then 0 else n - 2, 30⟩
    (mockMetaPartition 1 1 StoreMode.StoreModeMem "./partition_1")
    { mockMetaPartition 1 1 StoreMode.StoreModeMem "./partition_1" with
      dentryTree :=
        [{ ParentId := 1, Name := [69, 70, 71, 72, 73, 74, 75, 76, 77, 78], Inode := 2,
           Typ := 2 },
         { ParentId := 15, Name := [83, 84, 85, 86, 87, 88, 89, 90, 65, 66], Inode := 16,
           Typ := 16 }] }
    2 17 rfl rfl).1

/-- C10. `RandString(n)` for `n >= 0` returns a string of exactly `n` bytes, each an
upper-case ASCII letter (65..90); hence every name stored by `genDentry`, produced by
`RandString(rand.Int() % 100 + 10)`, is non-empty, has between 10 and 109 bytes and consists
of upper-case letters. -/
theorem RandString_shape :
    (∀ (r : Rand) (n : ℤ), 0 ≤ n →
      ∃ s r1, RandString r n = some (s, r1) ∧ s.length = n.toNat ∧
        ∀ b ∈ s, 65 ≤ b ∧ b ≤ 90) ∧
    (∀ (r : Rand), ∃ s r1, RandString r.Int.2 (r.Int.1 % 100 + 10) = some (s, r1) ∧
      s ≠ [] ∧ 10 ≤ s.length ∧ s.length ≤ 109 ∧ ∀ b ∈ s, 65 ≤ b ∧ b ≤ 90) ∧
    (∀ (fuel : Nat) (r r1 : Rand) (mp mp1 : MetaPartition) (cnt maxInode : Nat),
      mp.dentryTree = [] → genDentry fuel r mp cnt maxInode = some (mp1, r1) →
      ∀ d ∈ mp1.dentryTree, d.Name ≠ [] ∧ 10 ≤ d.Name.length ∧ d.Name.length ≤ 109 ∧
        ∀ b ∈ d.Name, 65 ≤ b ∧ b ≤ 90) := by
  refine ⟨RandString_spec, ?_, ?_⟩
  · intro r
    have h1 := Int.emod_nonneg r.Int.1 (by norm_num : (100 : ℤ) ≠ 0)
    have h2 := Int.emod_lt_of_pos r.Int.1 (by norm_num : (0 : ℤ) < 100)
    obtain ⟨s, r1, hs, hlen, hb⟩ := RandString_spec r.Int.2 (r.Int.1 % 100 + 10) (by omega)
    have hl : 10 ≤ s.length ∧ s.length ≤ 109 := by
      rw [hlen]; omega
    refine ⟨s, r1, hs, ?_, hl.1, hl.2, hb⟩
    intro hnil
    rw [hnil] at hl
    simp at hl
  · intro fuel r r1 mp mp1 cnt maxInode hempty h d hd
    obtain ⟨-, -, hb, -, -⟩ := genDentry_loop_of_eq fuel r r1 mp mp1 cnt maxInode hempty h
    obtain ⟨-, -, -, -, -, h10, h109, hbytes⟩ := hb d hd
    refine ⟨?_, h10, h109, hbytes⟩
    intro hnil
    rw [hnil] at h10
    simp at h10

/-- C10, witness: with the draws `0, 7, 14` the call `RandString(3)` returns `"AHO"`. -/
theorem RandString_shape_witness :
    ∃ s r1, RandString ⟨fun n => n * 7, 0⟩ 3 = some (s, r1) ∧ s.length = (3 : ℤ).toNat ∧
      ∀ b ∈ s, 65 ≤ b ∧ b ≤ 90 :=
  RandString_shape.1 ⟨fun n => n * 7, 0⟩ 3 (by norm_num)

/-! ## Store and load -/

end metanode
